import Mathlib

/-!
Verification development for the state-merge and call-path-prefix core of the
KLEE-based symbolic execution engine (files `lib/Core/MergeHandler.cpp`,
`tools/klee/main.cpp`, `runtime/Intrinsic/klee_make_symbolic_range.c`).

The C++ code is shallowly embedded: pure computations become Lean functions,
stateful methods become explicit state-passing functions, callbacks into the
interpreter (`pauseState`, `terminateState`, ...) become explicit event lists,
assertion failures and undefined behaviour (null dereference) become `none` in
an `Option` result.  `double` arithmetic is modelled exactly over `ℚ`, machine
strings over `List Char`, and opaque hash-consed `ref<Expr>` handles over `Nat`
(value-equal, cheaply comparable, immutable).
-/

/-- An execution state as seen by `MergeHandler`: an identity together with its
`steppedInstructions` counter.  The C++ code manipulates `ExecutionState *`
pointers; distinct model values stand for distinct states. -/
structure ExecState where
  sid : Nat
  steppedInstructions : Nat
deriving DecidableEq, Repr

/-- Callbacks the merge core issues to the interpreter, in order
(`Executor::pauseState`, `continueState`, `terminateState`), plus an
observable record of each `mState->merge(*es)` attempt (these mutate the
absorbing peer, so their order is observable). -/
inductive MHEvent where
  | pause (s : ExecState)
  | continueS (s : ExecState)
  | terminate (s : ExecState)
  | mergeAttempt (peer : ExecState) (arriving : ExecState)
deriving DecidableEq, Repr

/-- The state of one `MergeHandler` (`klee/MergeHandler.h`): the instruction
counter at construction, the open-state vector, the
`reachedMergeClose` map from close-point instruction to the bucket of paused
states (modelled as an association list; `std::map` iteration order is not
needed by any claim), the closed-state counter and the running mean.
`closeMean` is a C++ `double`; it is modelled exactly over `ℚ`. -/
structure MHState where
  openInstruction : Nat
  openStates : List ExecState
  reachedMergeClose : List (Nat × List ExecState)
  closedStateCount : Nat
  closeMean : ℚ
deriving DecidableEq, Repr

/-- Lookup of `reachedMergeClose.find(mp)` in the association-list model. -/
def lookupBucket : List (Nat × List ExecState) → Nat → Option (List ExecState)
  | [], _ => none
  | (k, v) :: rest, mp => if k = mp then some v else lookupBucket rest mp

/-- `reachedMergeClose[mp] = bucket`: update in place, or add the key. -/
def setBucket : List (Nat × List ExecState) → Nat → List ExecState → List (Nat × List ExecState)
  | [], mp, bucket => [(mp, bucket)]
  | (k, v) :: rest, mp, bucket =>
    if k = mp then (k, bucket) :: rest else (k, v) :: setBucket rest mp bucket

namespace MergeHandler

/-- `MergeHandler::getMean`: 0 when no state has closed yet, else the running
mean. -/
def getMean (h : MHState) : ℚ :=
  if h.closedStateCount = 0 then 0 else h.closeMean

/-- `MergeHandler::getInstrDistance`: `es->steppedInstructions - openInstruction`
(unsigned arithmetic; states inside the region have stepped at least as far as
the opening state, and `Nat` subtraction matches that regime). -/
def getInstrDistance (h : MHState) (es : ExecState) : Nat :=
  es.steppedInstructions - h.openInstruction

/-- `MergeHandler::getPrioritizeState`: the first open state (in `openStates`
order) that is not in the executor's `inCloseMerge` set and whose instruction
distance is below twice the mean; null (`none`) when no state qualifies. -/
def getPrioritizeState (inCloseMerge : List ExecState) (h : MHState) : Option ExecState :=
  h.openStates.find? fun s =>
    !(inCloseMerge.contains s) && decide ((getInstrDistance h s : ℚ) < 2 * getMean h)

/-- `MergeHandler::addOpenState`: an unconditional `push_back`. -/
def addOpenState (h : MHState) (es : ExecState) : MHState :=
  { h with openStates := h.openStates ++ [es] }

/-- The body of `MergeHandler::removeOpenState` on the raw vector:
`std::find`, `assert(it != end)` (modelled as `none`), swap the found element
with the last one, `pop_back`. -/
def removeOpenStateVec (l : List ExecState) (es : ExecState) : Option (List ExecState) :=
  match l.findIdx? fun x => x == es with
  | none => none
  | some i => some ((l.set i (l.getLastD es)).dropLast)

/-- `MergeHandler::removeOpenState` acting on the handler state. -/
def removeOpenState (h : MHState) (es : ExecState) : Option MHState :=
  (removeOpenStateVec h.openStates es).map fun l => { h with openStates := l }

/-- The merge loop inside `MergeHandler::addClosedState`: try
`mState->merge(*es)` on each bucket member in insertion (oldest-first) order,
stopping at the first success.  Returns the attempts made (in order) and
whether one succeeded. -/
def tryMergeBucket (merge : ExecState → ExecState → Bool) :
    List ExecState → ExecState → List MHEvent × Bool
  | [], _ => ([], false)
  | p :: rest, es =>
    if merge p es then ([MHEvent.mergeAttempt p es], true)
    else
      let r := tryMergeBucket merge rest es
      (MHEvent.mergeAttempt p es :: r.1, r.2)

/-- `MergeHandler::addClosedState(es, mp)`: update `closedStateCount` and
`closeMean`, remove `es` from `openStates` (assertion failure modelled as
`none`), then either start a new bucket for `mp` and pause `es`, or try to
merge `es` into each existing bucket member oldest-first - terminating `es` on
the first success and otherwise appending it to the bucket and pausing it.
The external merge policy is the parameter `merge`. -/
def addClosedState (merge : ExecState → ExecState → Bool)
    (h : MHState) (es : ExecState) (mp : Nat) : Option (MHState × List MHEvent) :=
  let cnt := h.closedStateCount + 1
  let mean := h.closeMean + ((getInstrDistance h es : ℚ) - h.closeMean) / (cnt : ℚ)
  match removeOpenStateVec h.openStates es with
  | none => none
  | some remaining =>
    let h1 : MHState :=
      { h with closedStateCount := cnt, closeMean := mean, openStates := remaining }
    match lookupBucket h1.reachedMergeClose mp with
    | none =>
      some ({ h1 with reachedMergeClose := setBucket h1.reachedMergeClose mp [es] },
            [MHEvent.pause es])
    | some bucket =>
      let r := tryMergeBucket merge bucket es
      if r.2 then
        some (h1, r.1 ++ [MHEvent.terminate es])
      else
        some ({ h1 with reachedMergeClose := setBucket h1.reachedMergeClose mp (bucket ++ [es]) },
              r.1 ++ [MHEvent.pause es])

/-- The `MergeHandler` constructor: record the opening state's instruction
counter, zero closed states, and add the opening state to `openStates`.  The
C++ constructor leaves `closeMean` uninitialized; the model makes that
explicit by taking the initial (garbage) value as a parameter. -/
def init (uninitMean : ℚ) (es : ExecState) : MHState :=
  addOpenState
    { openInstruction := es.steppedInstructions, openStates := [],
      reachedMergeClose := [], closedStateCount := 0, closeMean := uninitMean } es

/-- A sequence of `addClosedState` calls (state, close point, external merge
outcome fixed by `merge`), failing if any single call hits its assertion. -/
def runClosed (merge : ExecState → ExecState → Bool) :
    MHState → List (ExecState × Nat) → Option MHState
  | h, [] => some h
  | h, (es, mp) :: rest =>
    match addClosedState merge h es mp with
    | none => none
    | some (h', _) => runClosed merge h' rest

end MergeHandler

/-- The digit test from `KleeHandler::processTestCase`:
`'0' <= name[j] && name[j] <= '9'`. -/
def isAsciiDigit (c : Char) : Bool :=
  decide ('0' ≤ c) && decide (c ≤ '9')

/-- `out[i].first.rfind("_")`: index of the last underscore, if any
(`std::string::npos` becomes `none`). -/
def rfindUnderscore (s : List Char) : Option Nat :=
  match s.reverse.findIdx? fun c => c == '_' with
  | none => none
  | some j => some (s.length - 1 - j)

/-- The name-suffix stripping loop of `KleeHandler::processTestCase`: if the
name has an underscore and every character after the last underscore is a
digit, truncate the name at that underscore (`name.substr(0, last_underscore)`);
otherwise leave it unchanged. -/
def dropUniquifySuffix (s : List Char) : List Char :=
  match rfindUnderscore s with
  | none => s
  | some i => if (s.drop (i + 1)).all isAsciiDigit then s.take i else s

/-- The observable calls `klee_make_symbolic_range` makes into the runtime. -/
inductive RangeEvent where
  | checkAccess (start len : Nat)
  | makeSymbolic (len : Nat) (name : String)
  | copyBytes (dst len : Nat)
deriving DecidableEq, Repr

/-- `klee_make_symbolic_range(addr, offset, nbytes, name)` from
`runtime/Intrinsic/klee_make_symbolic_range.c`.  `mem` is the byte content of
the address space, `symData` the fresh symbolic bytes `klee_make_symbolic`
puts in the malloc'd buffer.  Null `addr` or `name` fails the entry
assertions (`none`); `nbytes == 0` returns immediately; otherwise the runtime
checks the range, makes it symbolic and copies it over `[addr+offset,
addr+offset+nbytes)`.  The result is the final memory and the calls made. -/
def kleeMakeSymbolicRange (mem : Nat → Nat) (symData : Nat → Nat)
    (addr : Option Nat) (offset nbytes : Nat) (name : Option String) :
    Option ((Nat → Nat) × List RangeEvent) :=
  match addr, name with
  | some a, some nm =>
    if nbytes = 0 then some (mem, [])
    else
      let start := a + offset
      let mem' : Nat → Nat := fun i =>
        if start ≤ i ∧ i < start + nbytes then symData (i - start) else mem i
      some (mem', [RangeEvent.checkAccess start nbytes,
                   RangeEvent.makeSymbolic nbytes nm,
                   RangeEvent.copyBytes start nbytes])
  | _, _ => none

/-- Opaque handle to a hash-consed expression (`ref<Expr>`): value-equal,
cheaply comparable, immutable. -/
abbrev ExprId := Nat

/-- Modelled from the spec: `FieldDescr` (the definition lives outside the
extracted sources) - one named field of a traced pointee with in/out trace
flags, optional in/out values (a null `ref<Expr>` is `none`), and an ordered
mapping from integer offset to nested `FieldDescr`. -/
inductive FieldDescr where
  | mk (name : String) (ty : String) (addr : Nat)
       (doTraceValueIn : Bool) (inVal : Option ExprId)
       (doTraceValueOut : Bool) (outVal : Option ExprId)
       (fields : List (Int × FieldDescr))

/-- Field accessor for `FieldDescr.name`. -/
def FieldDescr.name : FieldDescr → String
  | .mk n _ _ _ _ _ _ _ => n

/-- Field accessor for `FieldDescr.doTraceValueIn`. -/
def FieldDescr.doTraceValueIn : FieldDescr → Bool
  | .mk _ _ _ dIn _ _ _ _ => dIn

/-- Field accessor for `FieldDescr.inVal`. -/
def FieldDescr.inVal : FieldDescr → Option ExprId
  | .mk _ _ _ _ iv _ _ _ => iv

/-- Field accessor for `FieldDescr.doTraceValueOut`. -/
def FieldDescr.doTraceValueOut : FieldDescr → Bool
  | .mk _ _ _ _ _ dOut _ _ => dOut

/-- Field accessor for `FieldDescr.outVal`. -/
def FieldDescr.outVal : FieldDescr → Option ExprId
  | .mk _ _ _ _ _ _ ov _ => ov

/-- Field accessor for `FieldDescr.fields`. -/
def FieldDescr.fields : FieldDescr → List (Int × FieldDescr)
  | .mk _ _ _ _ _ _ _ fs => fs

mutual

/-- Structural (all-fields) Boolean equality on `FieldDescr`. -/
def FieldDescr.beq : FieldDescr → FieldDescr → Bool
  | .mk n1 t1 a1 di1 iv1 do1 ov1 fs1, .mk n2 t2 a2 di2 iv2 do2 ov2 fs2 =>
    n1 == n2 && t1 == t2 && a1 == a2 && di1 == di2 && iv1 == iv2 &&
    do1 == do2 && ov1 == ov2 && beqFieldList fs1 fs2

/-- Structural Boolean equality on nested field maps. -/
def beqFieldList : List (Int × FieldDescr) → List (Int × FieldDescr) → Bool
  | [], [] => true
  | (o1, f1) :: r1, (o2, f2) :: r2 => o1 == o2 && FieldDescr.beq f1 f2 && beqFieldList r1 r2
  | _, _ => false

end

mutual

/-- `FieldDescr.beq` decides propositional equality. -/
theorem FieldDescr.beq_iff : ∀ a b : FieldDescr, (FieldDescr.beq a b = true) ↔ a = b
  | .mk n1 t1 a1 di1 iv1 do1 ov1 fs1, .mk n2 t2 a2 di2 iv2 do2 ov2 fs2 => by
    have h2 := beqFieldList_iff fs1 fs2
    simp only [FieldDescr.beq, Bool.and_eq_true, beq_iff_eq, FieldDescr.mk.injEq, h2]
    tauto

/-- `beqFieldList` decides propositional equality. -/
theorem beqFieldList_iff : ∀ l1 l2 : List (Int × FieldDescr), (beqFieldList l1 l2 = true) ↔ l1 = l2
  | [], [] => by simp [beqFieldList]
  | [], (_, _) :: _ => by simp [beqFieldList]
  | (_, _) :: _, [] => by simp [beqFieldList]
  | (o1, f1) :: r1, (o2, f2) :: r2 => by
    have h1 := FieldDescr.beq_iff f1 f2
    have h2 := beqFieldList_iff r1 r2
    simp only [beqFieldList, Bool.and_eq_true, beq_iff_eq, List.cons.injEq, Prod.mk.injEq, h1, h2]

end

instance : DecidableEq FieldDescr := fun a b => decidable_of_iff _ (FieldDescr.beq_iff a b)

/-- Modelled from the spec: `CallArg` (definition outside the extracted
sources) - `{name, expr, isPtr, funPtr?, pointee}`; a set `funPtr` carries the
target function's name. -/
structure CallArg where
  name : String
  expr : ExprId
  isPtr : Bool
  funPtr : Option String
  pointee : FieldDescr
deriving DecidableEq

/-- Modelled from the spec: `CallExtraPtr` (definition outside the extracted
sources) - an additional traced pointer `{name, ptr, accessibleIn,
accessibleOut, pointee}`. -/
structure CallExtraPtr where
  name : String
  ptr : ExprId
  accessibleIn : Bool
  accessibleOut : Bool
  pointee : FieldDescr
deriving DecidableEq

/-- Modelled from the spec: `RetVal` (definition outside the extracted
sources) - `{expr?, isPtr, funPtr?, pointee}`; an absent `expr` means a void
call. -/
structure RetVal where
  expr : Option ExprId
  isPtr : Bool
  funPtr : Option String
  pointee : FieldDescr
deriving DecidableEq

/-- Modelled from the spec: `CallInfo` (definition outside the extracted
sources) - one complete intercepted call record.  `f` is the callee (by
name), `callPlace` the call-site line, `extraPtrs` the ordered map from
address key to extra pointer, and the two contexts are the ordered constraint
sequences at entry and during the call. -/
structure CallInfo where
  f : String
  callPlace : Nat
  args : List CallArg
  extraPtrs : List (Nat × CallExtraPtr)
  ret : RetVal
  returned : Bool
  callContext : List ExprId
  returnContext : List ExprId
deriving DecidableEq

/-- Modelled from the spec: `CallInfo::eq` (defined outside the extracted
sources) is structural equality - all fields equal, both contexts included. -/
def CallInfo.eq (a b : CallInfo) : Bool :=
  decide (a = b)

mutual

/-- The recursive "structure" of a traced pointee used by invocation
equivalence: field offsets and trace flags, with names, types, addresses and
values erased. -/
def FieldDescr.shape : FieldDescr → FieldDescr
  | .mk _ _ _ dIn _ dOut _ fs => .mk "" "" 0 dIn none dOut none (shapeFieldList fs)

/-- `FieldDescr.shape` mapped over a nested field list. -/
def shapeFieldList : List (Int × FieldDescr) → List (Int × FieldDescr)
  | [] => []
  | (o, f) :: rest => (o, f.shape) :: shapeFieldList rest

end

/-- The per-argument shape compared by invocation equivalence: pointer-ness,
function-pointer target, and the traced-field structure of the pointee. -/
def CallArg.invShape (a : CallArg) : Bool × Option String × FieldDescr :=
  (a.isPtr, a.funPtr, a.pointee.shape)

/-- The projection invocation equivalence compares: callee, argument shapes
and the entry path-constraint context. -/
def CallInfo.invKey (a : CallInfo) : String × List (Bool × Option String × FieldDescr) × List ExprId :=
  (a.f, a.args.map CallArg.invShape, a.callContext)

/-- Modelled from the spec: `CallInfo::sameInvocation` (defined outside the
extracted sources) - same callee, same `isPtr`/`funPtr` shape, same
traced-field structure (offsets and flags), same `callContext`;
`returnContext` and out-values are not compared. -/
def CallInfo.sameInvocation (a b : CallInfo) : Bool :=
  decide (a.invKey = b.invKey)

/-- The result of running one of the plaintext serializers: `some true` -
completed and returned `true`; `some false` - returned the `false` failure
marker; `none` - dereferenced a null `ref<Expr>` (undefined behaviour, the
process does not continue). -/
abbrev DumpResult := Option Bool

/-- The field loop of `dumpCallInfo` over an argument pointee's fields: a
traced in-value is dereferenced (null - crash), then a traced-but-null
out-value returns the `false` marker. -/
def dumpArgFieldsTxt : List (Int × FieldDescr) → DumpResult
  | [] => some true
  | (_, fd) :: rest =>
    if fd.doTraceValueIn || fd.doTraceValueOut then
      if fd.doTraceValueIn && fd.inVal.isNone then none
      else if fd.doTraceValueOut && fd.outVal.isNone then some false
      else dumpArgFieldsTxt rest
    else dumpArgFieldsTxt rest

/-- The per-argument part of `dumpCallInfo`: only a traced non-function
pointer argument can fail; its traced-but-null out-value (top level or any
field) returns the `false` marker, while a traced-but-null in-value is
dereferenced (crash). -/
def dumpArgTxt (a : CallArg) : DumpResult :=
  if a.isPtr then
    match a.funPtr with
    | some _ => some true
    | none =>
      if a.pointee.doTraceValueIn || a.pointee.doTraceValueOut then
        if a.pointee.doTraceValueIn && a.pointee.inVal.isNone then none
        else if a.pointee.doTraceValueOut && a.pointee.outVal.isNone then some false
        else dumpArgFieldsTxt a.pointee.fields
      else some true
  else some true

/-- The argument loop of `dumpCallInfo`; the first failure or crash stops it. -/
def dumpArgsTxt : List CallArg → DumpResult
  | [] => some true
  | a :: rest =>
    match dumpArgTxt a with
    | some true => dumpArgsTxt rest
    | r => r

/-- The field loop of `dumpCallInfo` over the return pointee: a traced
out-value is dereferenced without any null check (null - crash); there is no
failure-marker path here. -/
def dumpRetFieldsTxt : List (Int × FieldDescr) → DumpResult
  | [] => some true
  | (_, fd) :: rest =>
    if fd.doTraceValueOut then
      if fd.outVal.isNone then none else dumpRetFieldsTxt rest
    else dumpRetFieldsTxt rest

/-- The return-value part of `dumpCallInfo`: the traced out-value of a
returned pointer's pointee is dereferenced without a null check (crash when
absent); this path never returns the `false` marker. -/
def dumpRetTxt (r : RetVal) : DumpResult :=
  match r.expr with
  | none => some true
  | some _ =>
    if r.isPtr then
      match r.funPtr with
      | some _ => some true
      | none =>
        if r.pointee.doTraceValueOut then
          if r.pointee.outVal.isNone then none
          else dumpRetFieldsTxt r.pointee.fields
        else some true
    else some true

/-- `dumpCallInfo` (`tools/klee/main.cpp`): serialize one call record in the
plaintext "call_path" form.  `assert(ci.returned)` aborts on an unfinished
record; arguments are serialized first (the only source of the `false`
failure marker), then the return value (which can only crash), and finally
the extra pointers, whose in/out values are printed as raw references with no
null check and no failure path. -/
def dumpCallInfo (ci : CallInfo) : DumpResult :=
  if !ci.returned then none
  else
    match dumpArgsTxt ci.args with
    | some true => dumpRetTxt ci.ret
    | r => r

/-- The per-path loop of `KleeHandler::processCallPath`: dump call records in
order, stopping (`break`) at the first one whose serialization returns
`false`.  The result is the number of records fully dumped before the halt
(`none` if a record crashed). -/
def dumpPathLoop : List CallInfo → Option Nat
  | [] => some 0
  | ci :: rest =>
    match dumpCallInfo ci with
    | none => none
    | some false => some 0
    | some true => (dumpPathLoop rest).map (· + 1)

/-- The observable outcome of `KleeHandler::processCallPath` for one path:
how many call records were fully dumped, and whether the
`;;-- Constraints --` section was still written (it always is unless a
serializer crashed the process). -/
def processCallPathDump (path : List CallInfo) : Option (Nat × Bool) :=
  (dumpPathLoop path).map fun n => (n, true)

/-- `CallPathTip`: a call record together with the id of the path that first
created its node. -/
structure CallPathTip where
  call : CallInfo
  path_id : Nat
deriving DecidableEq

/-- `CallTree`: a prefix-sharing tree of call records.  The root holds a
dummy tip; every other node's tip is one call. -/
inductive CallTree where
  | mk (tip : CallPathTip) (children : List CallTree)

/-- Field accessor for `CallTree.tip`. -/
def CallTree.tip : CallTree → CallPathTip
  | .mk t _ => t

/-- Field accessor for `CallTree.children`. -/
def CallTree.children : CallTree → List CallTree
  | .mk _ cs => cs

mutual

/-- `CallTree::addCallPath`: an empty path is a no-op; otherwise walk the
children for a node whose tip call is structurally equal (`CallInfo::eq`) to
the head and recurse into it with the tail, or append a fresh child holding
the head and the originating path id and recurse into that. -/
def CallTree.addCallPath : CallTree → List CallInfo → Nat → CallTree
  | t, [], _ => t
  | .mk tip cs, c :: rest, pid => .mk tip (insertCallPath cs c rest pid)
termination_by t p pid => (p.length + 1, 0)

/-- The child-search-or-append loop of `CallTree::addCallPath`. -/
def insertCallPath : List CallTree → CallInfo → List CallInfo → Nat → List CallTree
  | [], c, rest, pid => [CallTree.addCallPath (.mk ⟨c, pid⟩ []) rest pid]
  | t :: ts, c, rest, pid =>
    if (CallTree.tip t).call.eq c then CallTree.addCallPath t rest pid :: ts
    else t :: insertCallPath ts c rest pid
termination_by cs c rest pid => (rest.length + 1, cs.length + 1)

end

mutual

/-- Number of nodes of a call tree, the root included. -/
def CallTree.numNodes : CallTree → Nat
  | .mk _ cs => 1 + numNodesList cs

/-- Total number of nodes of a forest. -/
def numNodesList : List CallTree → Nat
  | [] => 0
  | t :: ts => CallTree.numNodes t + numNodesList ts

end

/-- One step of `CallTree::groupChildren`: scan the groups built so far in
order and append the tip to the first group whose representative (its first
element) is invocation-equivalent to it; if none matches, open a new group at
the end.  (An empty group never arises; the defensive branch skips one.) -/
def insertTip : List (List CallPathTip) → CallPathTip → List (List CallPathTip)
  | [], cur => [[cur]]
  | g :: gs, cur =>
    match g with
    | [] => [] :: insertTip gs cur
    | rep :: _ =>
      if cur.call.sameInvocation rep.call then (g ++ [cur]) :: gs
      else g :: insertTip gs cur

/-- `CallTree::groupChildren`: partition the children's tips into an ordered
sequence of invocation-equivalence groups, scanning the children in order. -/
def CallTree.groupChildren (t : CallTree) : List (List CallPathTip) :=
  (t.children.map CallTree.tip).foldl insertTip []

/-- The grouping the specification describes, written directly: the first tip
opens the first group together with every later invocation-equivalent tip (in
children order); the remaining tips are grouped the same way.  Group order is
first-appearance order of the representatives, in-group order is children
order. -/
def specGroups : List CallPathTip → List (List CallPathTip)
  | [] => []
  | x :: xs =>
    (x :: xs.filter fun y => x.call.sameInvocation y.call) ::
      specGroups (xs.filter fun y => !(x.call.sameInvocation y.call))
termination_by l => l.length
decreasing_by simp_wf; exact Nat.lt_succ_of_le (List.length_filter_le _ _)

/-- The nonempty prefixes of a path, shortest first. -/
def nonemptyPrefixes (p : List CallInfo) : List (List CallInfo) :=
  (List.range p.length).map fun k => p.take (k + 1)

/-- The number of distinct nonempty prefixes over a set of inserted paths. -/
def distinctPrefixCount (paths : List (List CallInfo)) : Nat :=
  ((paths.map nonemptyPrefixes).flatten.dedup).length

/-- A minimal completed void call record, used to build concrete examples. -/
def mkSimpleCall (fname : String) : CallInfo :=
  { f := fname, callPlace := 0, args := [], extraPtrs := [],
    ret := { expr := none, isPtr := false, funPtr := none,
             pointee := .mk "" "" 0 false none false none [] },
    returned := true, callContext := [], returnContext := [] }

/-- A call whose returned pointer's pointee is marked `doTraceValueOut` while
its out-value is absent (null) at dump time. -/
def exRetAbsent : CallInfo :=
  { mkSimpleCall "g" with
    ret := { expr := some 7, isPtr := true, funPtr := none,
             pointee := .mk "p" "t" 0 false none true none [] } }

/-- A call whose pointer argument's pointee is marked `doTraceValueOut` while
its out-value is absent (null) at dump time. -/
def exArgAbsent : CallInfo :=
  { mkSimpleCall "h" with
    args := [{ name := "x", expr := 1, isPtr := true, funPtr := none,
               pointee := .mk "v" "t" 0 false none true none [] }] }

/-- A handler two states away from their close points (the E1 scenario:
distances 10 and 12). -/
def exMeanH0 : MHState :=
  { openInstruction := 0, openStates := [⟨1, 10⟩, ⟨2, 12⟩],
    reachedMergeClose := [], closedStateCount := 0, closeMean := 77 }

/-- `exMeanH0` after both states closed at point 5 and the second merged into
the first. -/
def exMeanH1 : MHState :=
  { openInstruction := 0, openStates := [],
    reachedMergeClose := [(5, [⟨1, 10⟩])], closedStateCount := 2, closeMean := 11 }

/-- A handler with one paused state in the bucket for close point 5 and one
still-open state. -/
def exC1H : MHState :=
  { openInstruction := 0, openStates := [⟨2, 12⟩],
    reachedMergeClose := [(5, [⟨1, 10⟩])], closedStateCount := 1, closeMean := 10 }

/-- `exC1H` after its open state closed at point 5 and merged into the paused
peer. -/
def exC1Hafter : MHState :=
  { openInstruction := 0, openStates := [],
    reachedMergeClose := [(5, [⟨1, 10⟩])], closedStateCount := 2, closeMean := 11 }

/-- A handler with mean 6 and two open states at distances 5 and 100 (the E3
scenario). -/
def exPrioH : MHState :=
  { openInstruction := 0, openStates := [⟨1, 5⟩, ⟨2, 100⟩],
    reachedMergeClose := [], closedStateCount := 1, closeMean := 6 }

/-- Whether a group's representative - its first element, `ret[gi][0]` in
`groupChildren` - is invocation-equivalent to the tip; an empty group (which
never arises) matches nothing. -/
def repMatches (g : List CallPathTip) (y : CallPathTip) : Bool :=
  match g with
  | [] => false
  | r :: _ => r.call.sameInvocation y.call

/-- Every group of `gs` extended with the tips of `l` its representative
accepts, in `l` order. -/
def extendGroups (gs : List (List CallPathTip)) (l : List CallPathTip) :
    List (List CallPathTip) :=
  gs.map fun g => g ++ l.filter (repMatches g)

/-- The tip is invocation-equivalent to no group representative of `gs`. -/
def noGroupMatches (gs : List (List CallPathTip)) (y : CallPathTip) : Bool :=
  gs.all fun g => !(repMatches g y)

/-- Groups of `gs` have pairwise inequivalent representatives: a tip accepted
by one is rejected by every later one. -/
def RepDisj (g1 g2 : List CallPathTip) : Prop :=
  ∀ y, repMatches g1 y = true → repMatches g2 y = false

/-- C10: with non-null `addr` and `name` and `nbytes = 0`,
`klee_make_symbolic_range` returns immediately with no effect: no
`klee_check_memory_access` and no `klee_make_symbolic` call is made and no
byte of memory is modified. -/
theorem make_symbolic_range_zero_nbytes (mem symData : Nat → Nat)
    (a off : Nat) (nm : String) :
    ∃ r, kleeMakeSymbolicRange mem symData (some a) off 0 (some nm) = some r ∧
      (∀ i, r.1 i = mem i) ∧ r.2 = [] ∧
      (∀ s l, RangeEvent.checkAccess s l ∉ r.2) ∧
      (∀ l n, RangeEvent.makeSymbolic l n ∉ r.2) := by
  refine ⟨(mem, []), rfl, fun i => rfl, rfl, ?_, ?_⟩ <;> simp

/-- `findIdx?` skips a leading segment on which the predicate is false,
advancing its start index by the segment's length. -/
theorem findIdx_skip_false (p : Char → Bool) :
    ∀ (l₁ l₂ : List Char) (i : Nat), (∀ x ∈ l₁, p x = false) →
      List.findIdx? p (l₁ ++ l₂) i = List.findIdx? p l₂ (i + l₁.length) := by
  intro l₁
  induction l₁ with
  | nil => intro l₂ i _; simp
  | cons x xs ih =>
    intro l₂ i hall
    have hx : p x = false := hall x (List.mem_cons_self x xs)
    have hrest : ∀ y ∈ xs, p y = false := fun y hy => hall y (List.mem_cons_of_mem x hy)
    have harg : i + 1 + xs.length = i + (x :: xs).length := by
      simp only [List.length_cons]
      omega
    rw [List.cons_append, List.findIdx?_cons, hx]
    simp only [Bool.false_eq_true, if_false]
    rw [ih l₂ (i + 1) hrest, harg]

/-- The last underscore of `pre ++ '_' :: suf` with underscore-free `suf` sits
at index `pre.length`. -/
theorem rfindUnderscore_decomp (pre suf : List Char) (hu : '_' ∉ suf) :
    rfindUnderscore (pre ++ '_' :: suf) = some pre.length := by
  unfold rfindUnderscore
  have hrev : (pre ++ '_' :: suf).reverse = suf.reverse ++ '_' :: pre.reverse := by
    simp
  rw [hrev]
  have hall : ∀ x ∈ suf.reverse, (x == '_') = false := by
    intro x hx
    have hxs : x ∈ suf := List.mem_reverse.mp hx
    simp only [beq_eq_false_iff_ne, ne_eq]
    intro h; exact hu (h ▸ hxs)
  rw [findIdx_skip_false _ suf.reverse ('_' :: pre.reverse) 0 hall, List.findIdx?_cons,
    if_pos (by simp)]
  have hlen : (pre ++ '_' :: suf).length = pre.length + suf.length + 1 := by
    simp only [List.length_append, List.length_cons]
    omega
  show some ((pre ++ '_' :: suf).length - 1 - (0 + suf.reverse.length)) = some pre.length
  rw [Option.some.injEq, hlen, List.length_reverse]
  omega

/-- C9: the ktest name-suffix stripping of `KleeHandler::processTestCase`
truncates a name at its last underscore exactly when every character after
that underscore is a digit, and leaves any other name (not-all-digits tail,
or no underscore at all) unchanged. -/
theorem testcase_name_suffix_strip (pre suf : List Char) (hu : '_' ∉ suf) :
    (suf.all isAsciiDigit = true → dropUniquifySuffix (pre ++ '_' :: suf) = pre) ∧
    (suf.all isAsciiDigit = false → dropUniquifySuffix (pre ++ '_' :: suf) = pre ++ '_' :: suf) ∧
    (∀ s : List Char, '_' ∉ s → dropUniquifySuffix s = s) := by
  have hdrop : (pre ++ '_' :: suf).drop (pre.length + 1) = suf := by
    have : pre ++ '_' :: suf = (pre ++ ['_']) ++ suf := by simp
    rw [this]
    have hl : (pre ++ ['_']).length = pre.length + 1 := by simp
    rw [← hl, List.drop_left]
  have htake : (pre ++ '_' :: suf).take pre.length = pre := List.take_left pre _
  refine ⟨?_, ?_, ?_⟩
  · intro hdig
    unfold dropUniquifySuffix
    rw [rfindUnderscore_decomp pre suf hu]
    simp [hdrop, hdig, htake]
  · intro hdig
    unfold dropUniquifySuffix
    rw [rfindUnderscore_decomp pre suf hu]
    simp [hdrop, hdig]
  · intro s hs
    unfold dropUniquifySuffix rfindUnderscore
    have hall : ∀ x ∈ s.reverse, (x == '_') = false := by
      intro x hx
      have : x ∈ s := List.mem_reverse.mp hx
      simp only [beq_eq_false_iff_ne, ne_eq]
      intro h; exact hs (h ▸ this)
    rw [List.findIdx?_eq_none_iff.mpr hall]

/-- Witness for C9 at the concrete names `foo_12` (stripped to `foo`),
`foo_1a` (unchanged) and `bar` (unchanged). -/
theorem testcase_name_suffix_strip_witness :
    (['1', '2'].all isAsciiDigit = true →
      dropUniquifySuffix (['f', 'o', 'o'] ++ '_' :: ['1', '2']) = ['f', 'o', 'o']) ∧
    (['1', '2'].all isAsciiDigit = false →
      dropUniquifySuffix (['f', 'o', 'o'] ++ '_' :: ['1', '2']) =
        ['f', 'o', 'o'] ++ '_' :: ['1', '2']) ∧
    (∀ s : List Char, '_' ∉ s → dropUniquifySuffix s = s) :=
  testcase_name_suffix_strip ['f', 'o', 'o'] ['1', '2'] (by decide)

/-- Shifting the start index of `findIdx?` shifts the reported index. -/
theorem findIdx_start_shift (p : ExecState → Bool) :
    ∀ (l : List ExecState) (i : Nat),
      List.findIdx? p l i = (List.findIdx? p l 0).map (· + i) := by
  intro l
  induction l with
  | nil => intro i; simp
  | cons x xs ih =>
    intro i
    rw [List.findIdx?_cons, List.findIdx?_cons]
    by_cases hx : p x = true
    · simp [hx]
    · rw [if_neg hx, if_neg hx, ih (i + 1), ih 1, Option.map_map]
      congr 1
      funext j
      simp
      omega

/-- Swap-and-pop removal: the removed state was present, and the remaining
vector is a permutation of the original with that state's first occurrence
erased (the order, however, changes: the last element moves into the removed
slot). -/
theorem removeOpenStateVec_perm :
    ∀ (l : List ExecState) (es : ExecState) (l2 : List ExecState),
      MergeHandler.removeOpenStateVec l es = some l2 → es ∈ l ∧ l2.Perm (l.erase es) := by
  intro l
  induction l with
  | nil =>
    intro es l2 h
    simp [MergeHandler.removeOpenStateVec] at h
  | cons x xs ih =>
    intro es l2 h
    unfold MergeHandler.removeOpenStateVec at h
    rw [List.findIdx?_cons] at h
    by_cases hx : x = es
    · subst hx
      rw [if_pos (by simp)] at h
      simp only [Option.some.injEq] at h
      rcases List.eq_nil_or_concat xs with hnil | ⟨ys, z, hconc⟩
      · subst hnil
        simp at h
        subst h
        exact ⟨List.mem_cons_self x [], by simp⟩
      · have hne : xs ≠ [] := by subst hconc; simp
        have hset : (x :: xs).set 0 ((x :: xs).getLastD x) = xs.getLast hne :: xs := by
          rw [List.getLastD_cons, List.getLastD_eq_getLast?,
            List.getLast?_eq_getLast xs hne]
          rfl
        rw [hset, List.dropLast_cons_of_ne_nil hne] at h
        subst h
        refine ⟨List.mem_cons_self x xs, ?_⟩
        rw [List.erase_cons_head]
        have hperm : (xs.dropLast ++ [xs.getLast hne]).Perm (xs.getLast hne :: xs.dropLast) :=
          List.perm_append_singleton _ _
        have hx2 : xs.dropLast ++ [xs.getLast hne] = xs := List.dropLast_append_getLast hne
        rw [hx2] at hperm
        exact hperm.symm
    · have hbx : (x == es) = false := by simp [hx]
      rw [if_neg (by simp [hx]), findIdx_start_shift] at h
      cases hj : List.findIdx? (fun y => y == es) xs 0 with
      | none =>
        rw [hj] at h
        exact Option.noConfusion h
      | some j =>
        rw [hj] at h
        simp only [Option.map_some', Option.some.injEq] at h
        have hne : xs ≠ [] := by
          rintro rfl
          simp at hj
        have hgl : (x :: xs).getLastD es = xs.getLastD es := by
          rw [List.getLastD_cons, List.getLastD_eq_getLast?, List.getLastD_eq_getLast?,
            List.getLast?_eq_getLast xs hne]
          rfl
        have hset2 : (x :: xs).set (j + 1) ((x :: xs).getLastD es)
            = x :: xs.set j (xs.getLastD es) := by
          rw [hgl]
          rfl
        have hsetne : xs.set j (xs.getLastD es) ≠ [] := by
          intro hc
          have hlen := congrArg List.length hc
          simp at hlen
          exact hne hlen
        rw [hset2, List.dropLast_cons_of_ne_nil hsetne] at h
        have hrec : MergeHandler.removeOpenStateVec xs es
            = some ((xs.set j (xs.getLastD es)).dropLast) := by
          unfold MergeHandler.removeOpenStateVec
          rw [hj]
        rcases ih es _ hrec with ⟨hmem, hperm⟩
        subst h
        refine ⟨List.mem_cons_of_mem x hmem, ?_⟩
        rw [List.erase_cons_tail (by simp [hbx])]
        exact hperm.cons x

/-- Counterexample to C7: after adding states 1, 2, 3 in that order, removing
state 1 leaves `openStates = [3, 2]`, not the insertion order `[2, 3]` of the
remaining states - `removeOpenState` swaps the last state into the removed
slot. -/
theorem removeOpenState_reorders_states :
    (MergeHandler.removeOpenState
        (MergeHandler.addOpenState
          (MergeHandler.addOpenState (MergeHandler.init 0 ⟨1, 0⟩) ⟨2, 0⟩) ⟨3, 0⟩)
        ⟨1, 0⟩).map (fun h => h.openStates) = some [⟨3, 0⟩, ⟨2, 0⟩] ∧
    ([⟨3, 0⟩, ⟨2, 0⟩] : List ExecState) ≠ [⟨2, 0⟩, ⟨3, 0⟩] := by
  constructor
  · decide
  · decide

/-- C7 (amended): `addOpenState` appends, so insertion order is kept by
additions alone; `removeOpenState` preserves only the multiset of the
remaining states (the swap-and-pop moves the last state into the removed
position, so iteration order is no longer insertion order after a removal of
a non-last state). -/
theorem removeOpenState_swap_pop_order (l : List ExecState) (es : ExecState)
    (l2 : List ExecState)
    (hr : MergeHandler.removeOpenStateVec l es = some l2) :
    es ∈ l ∧ l2.Perm (l.erase es) ∧
    ∀ (h : MHState) (x : ExecState),
      (MergeHandler.addOpenState h x).openStates = h.openStates ++ [x] := by
  rcases removeOpenStateVec_perm l es l2 hr with ⟨hmem, hperm⟩
  exact ⟨hmem, hperm, fun h x => rfl⟩

/-- Witness for the amended C7 at the concrete vector `[1, 2]` with state 1
removed. -/
theorem removeOpenState_swap_pop_order_witness :
    (⟨1, 0⟩ : ExecState) ∈ [⟨1, 0⟩, ⟨2, 0⟩] ∧
    ([⟨2, 0⟩] : List ExecState).Perm (([⟨1, 0⟩, ⟨2, 0⟩] : List ExecState).erase ⟨1, 0⟩) ∧
    ∀ (h : MHState) (x : ExecState),
      (MergeHandler.addOpenState h x).openStates = h.openStates ++ [x] :=
  removeOpenState_swap_pop_order [⟨1, 0⟩, ⟨2, 0⟩] ⟨1, 0⟩ [⟨2, 0⟩] (by decide)

/-- Counterexample to C8: `addOpenState` carries no assertion; calling it with
the state that is already in `openStates` (here the opening state itself)
silently produces a duplicate. -/
theorem addOpenState_allows_duplicates :
    (MergeHandler.addOpenState (MergeHandler.init 0 ⟨1, 5⟩) ⟨1, 5⟩).openStates
      = [⟨1, 5⟩, ⟨1, 5⟩] ∧
    ¬ ([⟨1, 5⟩, ⟨1, 5⟩] : List ExecState).Nodup := by
  constructor
  · decide
  · decide

/-- C8 (amended): `addOpenState` performs no duplicate check, so adding an
already-present state duplicates it (the added vector is duplicate-free
exactly when the state was absent); `removeOpenState` preserves
duplicate-freedom.  Under the caller convention that only absent states are
added, `openStates` therefore never holds duplicates. -/
theorem openStates_nodup_conditions (h : MHState) (es : ExecState)
    (hnd : h.openStates.Nodup) :
    ((MergeHandler.addOpenState h es).openStates.Nodup ↔ es ∉ h.openStates) ∧
    ∀ h2, MergeHandler.removeOpenState h es = some h2 → h2.openStates.Nodup := by
  constructor
  · show (h.openStates ++ [es]).Nodup ↔ es ∉ h.openStates
    simp [List.nodup_append, hnd, List.disjoint_singleton]
  · intro h2 hrem
    unfold MergeHandler.removeOpenState at hrem
    cases hvec : MergeHandler.removeOpenStateVec h.openStates es with
    | none =>
      rw [hvec] at hrem
      exact Option.noConfusion hrem
    | some l2 =>
      rw [hvec] at hrem
      simp only [Option.map_some', Option.some.injEq] at hrem
      rcases removeOpenStateVec_perm h.openStates es l2 hvec with ⟨_, hperm⟩
      have hl2 : l2.Nodup := hperm.symm.nodup (hnd.erase es)
      rw [← hrem]
      exact hl2

/-- Witness for the amended C8 at a concrete duplicate-free handler. -/
theorem openStates_nodup_conditions_witness :
    ((MergeHandler.addOpenState exPrioH ⟨3, 0⟩).openStates.Nodup ↔
      (⟨3, 0⟩ : ExecState) ∉ exPrioH.openStates) ∧
    ∀ h2, MergeHandler.removeOpenState exPrioH ⟨3, 0⟩ = some h2 → h2.openStates.Nodup :=
  openStates_nodup_conditions exPrioH ⟨3, 0⟩ (by decide)

/-- A successful `find?` splits its list at the first satisfying element. -/
theorem find_first_decomp (p : ExecState → Bool) :
    ∀ (l : List ExecState) (s : ExecState), l.find? p = some s →
      ∃ l₁ l₂, l = l₁ ++ s :: l₂ ∧ (∀ t ∈ l₁, p t = false) ∧ p s = true := by
  intro l
  induction l with
  | nil => intro s h; simp at h
  | cons x xs ih =>
    intro s h
    rw [List.find?_cons] at h
    cases hx : p x with
    | true =>
      rw [hx] at h
      simp only [Option.some.injEq] at h
      subst h
      exact ⟨[], xs, rfl, by simp, hx⟩
    | false =>
      rw [hx] at h
      rcases ih s h with ⟨l₁, l₂, heq, hfalse, hs⟩
      exact ⟨x :: l₁, l₂, by rw [heq, List.cons_append],
        by
          intro t ht
          rcases List.mem_cons.mp ht with rfl | ht2
          · exact hx
          · exact hfalse t ht2,
        hs⟩

/-- C5: with `closedStateCount > 0`, `getPrioritizeState` returns the first
state in `openStates` order that is not in the executor's `inCloseMerge` set
and whose instruction distance is strictly below `2 * closeMean` (every
earlier open state fails one of the two conditions), and it returns none
exactly when no open state satisfies both. -/
theorem getPrioritizeState_first_qualifying (inCM : List ExecState) (h : MHState)
    (hn : 0 < h.closedStateCount) :
    (∀ s, MergeHandler.getPrioritizeState inCM h = some s →
      ∃ l₁ l₂, h.openStates = l₁ ++ s :: l₂ ∧
        s ∉ inCM ∧ (MergeHandler.getInstrDistance h s : ℚ) < 2 * h.closeMean ∧
        ∀ t ∈ l₁, t ∈ inCM ∨ ¬((MergeHandler.getInstrDistance h t : ℚ) < 2 * h.closeMean)) ∧
    (MergeHandler.getPrioritizeState inCM h = none ↔
      ∀ s ∈ h.openStates,
        s ∈ inCM ∨ ¬((MergeHandler.getInstrDistance h s : ℚ) < 2 * h.closeMean)) := by
  have hm : MergeHandler.getMean h = h.closeMean := by
    unfold MergeHandler.getMean
    rw [if_neg (Nat.pos_iff_ne_zero.mp hn)]
  have hp : ∀ t : ExecState,
      ((!(inCM.contains t) &&
        decide ((MergeHandler.getInstrDistance h t : ℚ) < 2 * MergeHandler.getMean h)) = true)
      ↔ (t ∉ inCM ∧ (MergeHandler.getInstrDistance h t : ℚ) < 2 * h.closeMean) := by
    intro t
    rw [hm]
    simp
  constructor
  · intro s hs
    rcases find_first_decomp _ h.openStates s hs with ⟨l₁, l₂, heq, hfalse, hstrue⟩
    rcases (hp s).mp hstrue with ⟨hnotin, hdist⟩
    refine ⟨l₁, l₂, heq, hnotin, hdist, ?_⟩
    intro t ht
    have hf := hfalse t ht
    by_contra hc
    push_neg at hc
    have : (!(inCM.contains t) &&
        decide ((MergeHandler.getInstrDistance h t : ℚ) < 2 * MergeHandler.getMean h)) = true :=
      (hp t).mpr ⟨hc.1, hc.2⟩
    rw [hf] at this
    exact Bool.false_ne_true this
  · unfold MergeHandler.getPrioritizeState
    rw [List.find?_eq_none]
    constructor
    · intro hall s hsmem
      have := hall s hsmem
      by_contra hc
      push_neg at hc
      exact this ((hp s).mpr ⟨hc.1, hc.2⟩)
    · intro hall s hsmem
      intro htrue
      rcases (hp s).mp htrue with ⟨hnotin, hdist⟩
      rcases hall s hsmem with hin | hnd
      · exact hnotin hin
      · exact hnd hdist

/-- Witness for C5 at the E3-style handler `exPrioH` (mean 6, distances 5 and
100): the first conjunct applies to the returned state at distance 5. -/
theorem getPrioritizeState_first_qualifying_witness :
    (∀ s, MergeHandler.getPrioritizeState [] exPrioH = some s →
      ∃ l₁ l₂, exPrioH.openStates = l₁ ++ s :: l₂ ∧
        s ∉ ([] : List ExecState) ∧
        (MergeHandler.getInstrDistance exPrioH s : ℚ) < 2 * exPrioH.closeMean ∧
        ∀ t ∈ l₁, t ∈ ([] : List ExecState) ∨
          ¬((MergeHandler.getInstrDistance exPrioH t : ℚ) < 2 * exPrioH.closeMean)) ∧
    (MergeHandler.getPrioritizeState [] exPrioH = none ↔
      ∀ s ∈ exPrioH.openStates,
        s ∈ ([] : List ExecState) ∨
          ¬((MergeHandler.getInstrDistance exPrioH s : ℚ) < 2 * exPrioH.closeMean)) :=
  getPrioritizeState_first_qualifying [] exPrioH (by decide)

/-- Any successful `addClosedState` call leaves `openInstruction` unchanged,
bumps `closedStateCount` and applies the incremental (Welford-style) mean
update, whatever merging then happens. -/
theorem addClosedState_stats (merge : ExecState → ExecState → Bool)
    (h h' : MHState) (es : ExecState) (mp : Nat) (evs : List MHEvent)
    (heq : MergeHandler.addClosedState merge h es mp = some (h', evs)) :
    h'.openInstruction = h.openInstruction ∧
    h'.closedStateCount = h.closedStateCount + 1 ∧
    h'.closeMean = h.closeMean +
      ((MergeHandler.getInstrDistance h es : ℚ) - h.closeMean)
        / ((h.closedStateCount : ℚ) + 1) := by
  unfold MergeHandler.addClosedState at heq
  have hcast : ((h.closedStateCount + 1 : ℕ) : ℚ) = (h.closedStateCount : ℚ) + 1 := by
    push_cast
    ring
  cases hrv : MergeHandler.removeOpenStateVec h.openStates es with
  | none => rw [hrv] at heq; exact Option.noConfusion heq
  | some rem =>
    rw [hrv] at heq
    dsimp only at heq
    cases hlb : lookupBucket h.reachedMergeClose mp with
    | none =>
      rw [hlb] at heq
      dsimp only at heq
      simp only [Option.some.injEq, Prod.mk.injEq] at heq
      rw [← heq.1, ← hcast]
      exact ⟨rfl, rfl, rfl⟩
    | some bucket =>
      rw [hlb] at heq
      dsimp only at heq
      by_cases hm2 : (MergeHandler.tryMergeBucket merge bucket es).2 = true
      · rw [if_pos hm2] at heq
        simp only [Option.some.injEq, Prod.mk.injEq] at heq
        rw [← heq.1, ← hcast]
        exact ⟨rfl, rfl, rfl⟩
      · rw [if_neg hm2] at heq
        simp only [Option.some.injEq, Prod.mk.injEq] at heq
        rw [← heq.1, ← hcast]
        exact ⟨rfl, rfl, rfl⟩

/-- Over any successful run of `addClosedState` calls, `openInstruction` is
preserved, the closed-state count grows by the number of calls, and
`closeMean * closedStateCount` accumulates the sum of the closed states'
instruction distances. -/
theorem runClosed_stats (merge : ExecState → ExecState → Bool) :
    ∀ (steps : List (ExecState × Nat)) (h h' : MHState),
      MergeHandler.runClosed merge h steps = some h' →
      h'.openInstruction = h.openInstruction ∧
      h'.closedStateCount = h.closedStateCount + steps.length ∧
      h'.closeMean * (h'.closedStateCount : ℚ) =
        h.closeMean * (h.closedStateCount : ℚ) +
          (steps.map fun p => (MergeHandler.getInstrDistance h p.1 : ℚ)).sum := by
  intro steps
  induction steps with
  | nil =>
    intro h h' hrun
    unfold MergeHandler.runClosed at hrun
    simp only [Option.some.injEq] at hrun
    subst hrun
    simp
  | cons step rest ih =>
    intro h h' hrun
    obtain ⟨es, mp⟩ := step
    unfold MergeHandler.runClosed at hrun
    cases hadd : MergeHandler.addClosedState merge h es mp with
    | none => rw [hadd] at hrun; exact Option.noConfusion hrun
    | some r =>
      obtain ⟨h1, evs⟩ := r
      rw [hadd] at hrun
      rcases addClosedState_stats merge h h1 es mp evs hadd with ⟨hoi, hcnt, hmean⟩
      rcases ih h1 h' hrun with ⟨ihoi, ihcnt, ihmean⟩
      have hdists : (rest.map fun p => (MergeHandler.getInstrDistance h1 p.1 : ℚ))
          = rest.map fun p => (MergeHandler.getInstrDistance h p.1 : ℚ) := by
        apply List.map_congr_left
        intro p _
        unfold MergeHandler.getInstrDistance
        rw [hoi]
      refine ⟨by rw [ihoi, hoi], by rw [ihcnt, hcnt, List.length_cons]; ring, ?_⟩
      rw [ihmean, hdists, hmean, hcnt]
      have hstep : (h.closeMean +
            ((MergeHandler.getInstrDistance h es : ℚ) - h.closeMean)
              / ((h.closedStateCount : ℚ) + 1)) * ((h.closedStateCount + 1 : ℕ) : ℚ)
          = h.closeMean * (h.closedStateCount : ℚ)
            + (MergeHandler.getInstrDistance h es : ℚ) := by
        have hne : ((h.closedStateCount : ℚ) + 1) ≠ 0 := by positivity
        push_cast
        field_simp
        ring
      rw [hstep, List.map_cons, List.sum_cons]
      ring

/-- C2: `getMean` is 0 while no state has closed; after a successful run of
`addClosedState` calls from a fresh handler, `closedStateCount` counts the
calls and `getMean` is exactly the arithmetic mean of the closed states'
instruction distances (`steppedInstructions` minus the handler's
`openInstruction`), maintained by the incremental update. -/
theorem getMean_is_arithmetic_mean (merge : ExecState → ExecState → Bool)
    (h0 h1 : MHState) (steps : List (ExecState × Nat))
    (hc : h0.closedStateCount = 0)
    (hrun : MergeHandler.runClosed merge h0 steps = some h1) :
    MergeHandler.getMean h0 = 0 ∧
    h1.closedStateCount = steps.length ∧
    (steps ≠ [] → MergeHandler.getMean h1 =
      (steps.map fun p => (MergeHandler.getInstrDistance h0 p.1 : ℚ)).sum
        / (steps.length : ℚ)) := by
  rcases runClosed_stats merge steps h0 h1 hrun with ⟨_, hcnt, hmean⟩
  rw [hc] at hcnt hmean
  refine ⟨by unfold MergeHandler.getMean; rw [if_pos hc], by omega, ?_⟩
  intro hne
  have hlen : steps.length ≠ 0 := fun hz => hne (List.eq_nil_of_length_eq_zero hz)
  have hcast : ((steps.length : ℚ)) ≠ 0 := Nat.cast_ne_zero.mpr hlen
  have hg : MergeHandler.getMean h1 = h1.closeMean := by
    unfold MergeHandler.getMean
    rw [if_neg (by omega)]
  rw [hg]
  have hsum : h1.closeMean * (steps.length : ℚ)
      = (steps.map fun p => (MergeHandler.getInstrDistance h0 p.1 : ℚ)).sum := by
    rw [hcnt] at hmean
    simp only [Nat.zero_add, Nat.cast_zero, mul_zero, zero_add] at hmean
    exact hmean
  rw [eq_div_iff hcast]
  exact hsum

/-- Witness for C2: the E1 run (distances 10 and 12 closing at point 5, the
second merging into the first) gives count 2 and mean 11. -/
theorem getMean_is_arithmetic_mean_witness :
    MergeHandler.getMean exMeanH0 = 0 ∧
    exMeanH1.closedStateCount =
      ([(⟨1, 10⟩, 5), (⟨2, 12⟩, 5)] : List (ExecState × Nat)).length ∧
    (([(⟨1, 10⟩, 5), (⟨2, 12⟩, 5)] : List (ExecState × Nat)) ≠ [] →
      MergeHandler.getMean exMeanH1 =
        (([(⟨1, 10⟩, 5), (⟨2, 12⟩, 5)] : List (ExecState × Nat)).map
          fun p => (MergeHandler.getInstrDistance exMeanH0 p.1 : ℚ)).sum
          / (([(⟨1, 10⟩, 5), (⟨2, 12⟩, 5)] : List (ExecState × Nat)).length : ℚ)) :=
  getMean_is_arithmetic_mean (fun _ _ => true) exMeanH0 exMeanH1
    [(⟨1, 10⟩, 5), (⟨2, 12⟩, 5)] (by decide)
    (by
      simp [MergeHandler.runClosed, MergeHandler.addClosedState,
        MergeHandler.removeOpenStateVec, exMeanH0, exMeanH1, lookupBucket,
        MergeHandler.tryMergeBucket, MergeHandler.getInstrDistance, setBucket,
        List.findIdx?_cons]
      norm_num)

/-- Looking up the key just written by `setBucket` returns the new bucket. -/
theorem lookup_setBucket_self :
    ∀ (m : List (Nat × List ExecState)) (mp : Nat) (b : List ExecState),
      lookupBucket (setBucket m mp b) mp = some b := by
  intro m
  induction m with
  | nil => intro mp b; simp [setBucket, lookupBucket]
  | cons kv rest ih =>
    intro mp b
    obtain ⟨k, v⟩ := kv
    by_cases hk : k = mp
    · subst hk
      simp [setBucket, lookupBucket]
    · simp only [setBucket, if_neg hk]
      simp only [lookupBucket, if_neg hk]
      exact ih mp b

/-- The merge loop on a bucket whose prefix rejects and whose next member
accepts: one attempt per rejecting peer in order, then the accepting attempt,
and success. -/
theorem tryMergeBucket_success (merge : ExecState → ExecState → Bool) :
    ∀ (pre : List ExecState) (p : ExecState) (post : List ExecState) (es : ExecState),
      (∀ q ∈ pre, merge q es = false) → merge p es = true →
      MergeHandler.tryMergeBucket merge (pre ++ p :: post) es
        = (pre.map (fun q => MHEvent.mergeAttempt q es) ++ [MHEvent.mergeAttempt p es], true) := by
  intro pre
  induction pre with
  | nil =>
    intro p post es _ hp
    simp [MergeHandler.tryMergeBucket, hp]
  | cons q qs ih =>
    intro p post es hfail hp
    have hq : merge q es = false := hfail q (List.mem_cons_self q qs)
    have hqs : ∀ x ∈ qs, merge x es = false := fun x hx => hfail x (List.mem_cons_of_mem q hx)
    rw [List.cons_append]
    unfold MergeHandler.tryMergeBucket
    rw [hq]
    simp only [Bool.false_eq_true, if_false]
    rw [ih p post es hqs hp]
    simp

/-- The merge loop on a bucket every member of which rejects: one attempt per
peer in order, and failure. -/
theorem tryMergeBucket_fail (merge : ExecState → ExecState → Bool) :
    ∀ (bucket : List ExecState) (es : ExecState),
      (∀ p ∈ bucket, merge p es = false) →
      MergeHandler.tryMergeBucket merge bucket es
        = (bucket.map (fun q => MHEvent.mergeAttempt q es), false) := by
  intro bucket
  induction bucket with
  | nil => intro es _; simp [MergeHandler.tryMergeBucket]
  | cons q qs ih =>
    intro es hfail
    have hq : merge q es = false := hfail q (List.mem_cons_self q qs)
    have hqs : ∀ x ∈ qs, merge x es = false := fun x hx => hfail x (List.mem_cons_of_mem q hx)
    unfold MergeHandler.tryMergeBucket
    rw [hq]
    simp only [Bool.false_eq_true, if_false]
    rw [ih es hqs]
    simp

/-- A merge-attempt record is counted zero times when looking for a different
kind of event. -/
theorem count_attempt_map (l : List ExecState) (es : ExecState) (ev : MHEvent)
    (hne : ∀ q : ExecState, MHEvent.mergeAttempt q es ≠ ev) :
    (l.map fun q => MHEvent.mergeAttempt q es).count ev = 0 := by
  rw [List.count_eq_zero]
  intro hmem
  rcases List.mem_map.mp hmem with ⟨q, _, hq⟩
  exact hne q hq

/-- C1: a successful `addClosedState(s, cp)` with an existing bucket for `cp`
tries the bucket's states oldest-first; on the first accepting peer exactly
one `terminateState(s)` is issued (no pause) and the bucket is unchanged (`s`
is not added); when every peer rejects, `s` is appended to the bucket and
exactly one `pauseState(s)` is issued (no terminate); with no bucket yet, `s`
becomes the sole first element of the new bucket and is paused. -/
theorem addClosedState_merge_rule (merge : ExecState → ExecState → Bool)
    (h h' : MHState) (es : ExecState) (mp : Nat) (evs : List MHEvent)
    (heq : MergeHandler.addClosedState merge h es mp = some (h', evs)) :
    (lookupBucket h.reachedMergeClose mp = none →
      lookupBucket h'.reachedMergeClose mp = some [es] ∧ evs = [MHEvent.pause es]) ∧
    ∀ bucket, lookupBucket h.reachedMergeClose mp = some bucket →
      ((∀ pre p post, bucket = pre ++ p :: post →
          (∀ q ∈ pre, merge q es = false) → merge p es = true →
          evs = pre.map (fun q => MHEvent.mergeAttempt q es)
            ++ [MHEvent.mergeAttempt p es, MHEvent.terminate es] ∧
          lookupBucket h'.reachedMergeClose mp = some bucket ∧
          evs.count (MHEvent.terminate es) = 1 ∧ evs.count (MHEvent.pause es) = 0) ∧
       ((∀ p ∈ bucket, merge p es = false) →
          evs = bucket.map (fun q => MHEvent.mergeAttempt q es) ++ [MHEvent.pause es] ∧
          lookupBucket h'.reachedMergeClose mp = some (bucket ++ [es]) ∧
          evs.count (MHEvent.pause es) = 1 ∧ evs.count (MHEvent.terminate es) = 0)) := by
  unfold MergeHandler.addClosedState at heq
  cases hrv : MergeHandler.removeOpenStateVec h.openStates es with
  | none => rw [hrv] at heq; exact Option.noConfusion heq
  | some rem =>
    rw [hrv] at heq
    dsimp only at heq
    cases hlb : lookupBucket h.reachedMergeClose mp with
    | none =>
      rw [hlb] at heq
      dsimp only at heq
      simp only [Option.some.injEq, Prod.mk.injEq] at heq
      constructor
      · intro _
        refine ⟨?_, heq.2.symm⟩
        rw [← heq.1]
        exact lookup_setBucket_self h.reachedMergeClose mp [es]
      · intro bucket hb
        exact Option.noConfusion hb
    | some bucket0 =>
      rw [hlb] at heq
      dsimp only at heq
      constructor
      · intro hnone
        exact Option.noConfusion hnone
      · intro bucket hb
        obtain rfl : bucket0 = bucket := Option.some.inj hb
        constructor
        · intro pre p post hdec hfail hsucc
          rw [hdec] at heq
          rw [tryMergeBucket_success merge pre p post es hfail hsucc] at heq
          dsimp only at heq
          rw [if_pos rfl] at heq
          simp only [Option.some.injEq, Prod.mk.injEq] at heq
          have hevs : evs = pre.map (fun q => MHEvent.mergeAttempt q es)
              ++ [MHEvent.mergeAttempt p es, MHEvent.terminate es] := by
            rw [← heq.2]
            simp
          refine ⟨hevs, ?_, ?_, ?_⟩
          · rw [← heq.1]
            dsimp only
            rw [hlb]
          · rw [hevs, List.count_append,
              count_attempt_map pre es (MHEvent.terminate es) (fun q => by simp)]
            simp [List.count_cons]
          · rw [hevs, List.count_append,
              count_attempt_map pre es (MHEvent.pause es) (fun q => by simp)]
            simp [List.count_cons]
        · intro hfail
          rw [tryMergeBucket_fail merge bucket0 es hfail] at heq
          dsimp only at heq
          simp only [Bool.false_eq_true, if_false, Option.some.injEq, Prod.mk.injEq] at heq
          have hevs : evs = bucket0.map (fun q => MHEvent.mergeAttempt q es)
              ++ [MHEvent.pause es] := heq.2.symm
          refine ⟨hevs, ?_, ?_, ?_⟩
          · rw [← heq.1]
            dsimp only
            exact lookup_setBucket_self h.reachedMergeClose mp (bucket0 ++ [es])
          · rw [hevs, List.count_append,
              count_attempt_map bucket0 es (MHEvent.pause es) (fun q => by simp)]
            simp [List.count_cons]
          · rw [hevs, List.count_append,
              count_attempt_map bucket0 es (MHEvent.terminate es) (fun q => by simp)]
            simp [List.count_cons]

/-- Witness for C1: state of distance 12 closing at point 5 merges into the
already-paused peer of distance 10 (one merge attempt, one terminate). -/
theorem addClosedState_merge_rule_witness :
    (lookupBucket exC1H.reachedMergeClose 5 = none →
      lookupBucket exC1Hafter.reachedMergeClose 5 = some [⟨2, 12⟩] ∧
      [MHEvent.mergeAttempt ⟨1, 10⟩ ⟨2, 12⟩, MHEvent.terminate ⟨2, 12⟩]
        = [MHEvent.pause ⟨2, 12⟩]) ∧
    ∀ bucket, lookupBucket exC1H.reachedMergeClose 5 = some bucket →
      ((∀ pre p post, bucket = pre ++ p :: post →
          (∀ q ∈ pre, (fun _ _ : ExecState => true) q ⟨2, 12⟩ = false) →
          (fun _ _ : ExecState => true) p ⟨2, 12⟩ = true →
          [MHEvent.mergeAttempt ⟨1, 10⟩ ⟨2, 12⟩, MHEvent.terminate ⟨2, 12⟩]
            = pre.map (fun q => MHEvent.mergeAttempt q ⟨2, 12⟩)
              ++ [MHEvent.mergeAttempt p ⟨2, 12⟩, MHEvent.terminate ⟨2, 12⟩] ∧
          lookupBucket exC1Hafter.reachedMergeClose 5 = some bucket ∧
          ([MHEvent.mergeAttempt ⟨1, 10⟩ ⟨2, 12⟩,
            MHEvent.terminate ⟨2, 12⟩] : List MHEvent).count (MHEvent.terminate ⟨2, 12⟩) = 1 ∧
          ([MHEvent.mergeAttempt ⟨1, 10⟩ ⟨2, 12⟩,
            MHEvent.terminate ⟨2, 12⟩] : List MHEvent).count (MHEvent.pause ⟨2, 12⟩) = 0) ∧
       ((∀ p ∈ bucket, (fun _ _ : ExecState => true) p ⟨2, 12⟩ = false) →
          [MHEvent.mergeAttempt ⟨1, 10⟩ ⟨2, 12⟩, MHEvent.terminate ⟨2, 12⟩]
            = bucket.map (fun q => MHEvent.mergeAttempt q ⟨2, 12⟩) ++ [MHEvent.pause ⟨2, 12⟩] ∧
          lookupBucket exC1Hafter.reachedMergeClose 5 = some (bucket ++ [⟨2, 12⟩]) ∧
          ([MHEvent.mergeAttempt ⟨1, 10⟩ ⟨2, 12⟩,
            MHEvent.terminate ⟨2, 12⟩] : List MHEvent).count (MHEvent.pause ⟨2, 12⟩) = 1 ∧
          ([MHEvent.mergeAttempt ⟨1, 10⟩ ⟨2, 12⟩,
            MHEvent.terminate ⟨2, 12⟩] : List MHEvent).count (MHEvent.terminate ⟨2, 12⟩) = 0)) :=
  addClosedState_merge_rule (fun _ _ => true) exC1H exC1Hafter ⟨2, 12⟩ 5
    [MHEvent.mergeAttempt ⟨1, 10⟩ ⟨2, 12⟩, MHEvent.terminate ⟨2, 12⟩]
    (by
      simp [MergeHandler.addClosedState, MergeHandler.removeOpenStateVec, exC1H,
        exC1Hafter, lookupBucket, MergeHandler.tryMergeBucket,
        MergeHandler.getInstrDistance, List.findIdx?_cons]
      norm_num)

/-- The return-pointee field loop never returns the `false` marker - its only
abnormal outcome is a null dereference. -/
theorem dumpRetFieldsTxt_ne_false :
    ∀ fs : List (Int × FieldDescr), dumpRetFieldsTxt fs ≠ some false := by
  intro fs
  induction fs with
  | nil => simp [dumpRetFieldsTxt]
  | cons pr rest ih =>
    obtain ⟨o, fd⟩ := pr
    unfold dumpRetFieldsTxt
    by_cases hdo : fd.doTraceValueOut = true
    · rw [if_pos hdo]
      by_cases hov : fd.outVal.isNone = true
      · rw [if_pos hov]; simp
      · rw [if_neg hov]; exact ih
    · rw [if_neg hdo]; exact ih

/-- The return-value serializer never returns the `false` marker: an absent
traced out-value there is dereferenced (crash), not reported. -/
theorem dumpRetTxt_ne_false (r : RetVal) : dumpRetTxt r ≠ some false := by
  unfold dumpRetTxt
  cases r.expr with
  | none => simp
  | some e =>
    dsimp only
    by_cases hp : r.isPtr = true
    · rw [if_pos hp]
      cases r.funPtr with
      | some fp => simp
      | none =>
        dsimp only
        by_cases hdo : r.pointee.doTraceValueOut = true
        · rw [if_pos hdo]
          by_cases hov : r.pointee.outVal.isNone = true
          · rw [if_pos hov]; simp
          · rw [if_neg hov]; exact dumpRetFieldsTxt_ne_false r.pointee.fields
        · rw [if_neg hdo]; simp
    · rw [if_neg hp]; simp

/-- If the argument field loop returns the `false` marker, some field of the
pointee is marked traced-out with an absent out-value. -/
theorem dumpArgFieldsTxt_false :
    ∀ fs : List (Int × FieldDescr), dumpArgFieldsTxt fs = some false →
      ∃ pr ∈ fs, pr.2.doTraceValueOut = true ∧ pr.2.outVal = none := by
  intro fs
  induction fs with
  | nil => intro h; simp [dumpArgFieldsTxt] at h
  | cons pr rest ih =>
    obtain ⟨o, fd⟩ := pr
    intro h
    unfold dumpArgFieldsTxt at h
    by_cases htr : (fd.doTraceValueIn || fd.doTraceValueOut) = true
    · rw [if_pos htr] at h
      by_cases hin : (fd.doTraceValueIn && fd.inVal.isNone) = true
      · rw [if_pos hin] at h
        exact Option.noConfusion h
      · rw [if_neg hin] at h
        by_cases hout : (fd.doTraceValueOut && fd.outVal.isNone) = true
        · rcases Bool.and_eq_true_iff.mp hout with ⟨h1, h2⟩
          exact ⟨(o, fd), List.mem_cons_self _ _, h1, Option.isNone_iff_eq_none.mp h2⟩
        · rw [if_neg hout] at h
          rcases ih h with ⟨q, hq, hprop⟩
          exact ⟨q, List.mem_cons_of_mem _ hq, hprop⟩
    · rw [if_neg htr] at h
      rcases ih h with ⟨q, hq, hprop⟩
      exact ⟨q, List.mem_cons_of_mem _ hq, hprop⟩

/-- If one argument's serializer returns the `false` marker, that argument is
a traced non-function pointer with an absent traced out-value at the top of
its pointee or in one of the pointee's fields. -/
theorem dumpArgTxt_false (a : CallArg) (h : dumpArgTxt a = some false) :
    a.isPtr = true ∧ a.funPtr = none ∧
      ((a.pointee.doTraceValueOut = true ∧ a.pointee.outVal = none) ∨
       ∃ pr ∈ a.pointee.fields, pr.2.doTraceValueOut = true ∧ pr.2.outVal = none) := by
  unfold dumpArgTxt at h
  by_cases hp : a.isPtr = true
  · rw [if_pos hp] at h
    cases hfp : a.funPtr with
    | some fp =>
      rw [hfp] at h
      dsimp only at h
      simp at h
    | none =>
      rw [hfp] at h
      dsimp only at h
      by_cases htr : (a.pointee.doTraceValueIn || a.pointee.doTraceValueOut) = true
      · rw [if_pos htr] at h
        by_cases hin : (a.pointee.doTraceValueIn && a.pointee.inVal.isNone) = true
        · rw [if_pos hin] at h
          exact Option.noConfusion h
        · rw [if_neg hin] at h
          by_cases hout : (a.pointee.doTraceValueOut && a.pointee.outVal.isNone) = true
          · rcases Bool.and_eq_true_iff.mp hout with ⟨h1, h2⟩
            exact ⟨hp, rfl, Or.inl ⟨h1, Option.isNone_iff_eq_none.mp h2⟩⟩
          · rw [if_neg hout] at h
            exact ⟨hp, rfl, Or.inr (dumpArgFieldsTxt_false a.pointee.fields h)⟩
      · rw [if_neg htr] at h
        simp at h
  · rw [if_neg hp] at h
    simp at h

/-- If the argument loop returns the `false` marker, some argument's
serializer did. -/
theorem dumpArgsTxt_false :
    ∀ args : List CallArg, dumpArgsTxt args = some false →
      ∃ a ∈ args, dumpArgTxt a = some false := by
  intro args
  induction args with
  | nil => intro h; simp [dumpArgsTxt] at h
  | cons a rest ih =>
    intro h
    unfold dumpArgsTxt at h
    cases ha : dumpArgTxt a with
    | none => rw [ha] at h; exact Option.noConfusion h
    | some b =>
      cases b with
      | true =>
        rw [ha] at h
        rcases ih h with ⟨a2, ha2, hprop⟩
        exact ⟨a2, List.mem_cons_of_mem _ ha2, hprop⟩
      | false =>
        rw [ha] at h
        exact ⟨a, List.mem_cons_self _ _, ha⟩

/-- Counterexample to C6: a call whose returned pointer's pointee is marked
`doTraceValueOut` with an absent out-value does not make the serializer
return the `false` failure marker - `dumpCallInfo` dereferences the null
expression without a check (modelled as the crash outcome `none`). -/
theorem dump_ret_absent_no_marker :
    exRetAbsent.ret.pointee.doTraceValueOut = true ∧
    exRetAbsent.ret.pointee.outVal = none ∧
    dumpCallInfo exRetAbsent ≠ some false ∧
    dumpCallInfo exRetAbsent = none := by
  refine ⟨by decide, by decide, by decide, by decide⟩

/-- C6 (amended): only an absent traced out-value of a non-function-pointer
argument's pointee (top level or field) makes `dumpCallInfo` return the
`false` marker; when the marker occurs after successfully dumped calls,
`processCallPath` writes exactly the preceding calls, still emits the
`;;-- Constraints --` section and finishes normally (an absent traced
out-value on the return pointee is instead dereferenced without a check). -/
theorem dump_failure_halts_path (pre : List CallInfo) (ci : CallInfo)
    (post : List CallInfo)
    (hpre : ∀ c ∈ pre, dumpCallInfo c = some true)
    (hci : dumpCallInfo ci = some false) :
    processCallPathDump (pre ++ ci :: post) = some (pre.length, true) ∧
    ∀ c : CallInfo, dumpCallInfo c = some false →
      ∃ a ∈ c.args, a.isPtr = true ∧ a.funPtr = none ∧
        ((a.pointee.doTraceValueOut = true ∧ a.pointee.outVal = none) ∨
         ∃ pr ∈ a.pointee.fields, pr.2.doTraceValueOut = true ∧ pr.2.outVal = none) := by
  constructor
  · have hloop : ∀ pre2 : List CallInfo, (∀ c ∈ pre2, dumpCallInfo c = some true) →
        dumpPathLoop (pre2 ++ ci :: post) = some pre2.length := by
      intro pre2
      induction pre2 with
      | nil =>
        intro _
        rw [List.nil_append]
        unfold dumpPathLoop
        rw [hci]
        rfl
      | cons c rest ih =>
        intro hall
        rw [List.cons_append]
        unfold dumpPathLoop
        rw [hall c (List.mem_cons_self _ _), ih (fun x hx => hall x (List.mem_cons_of_mem _ hx))]
        simp
    unfold processCallPathDump
    rw [hloop pre hpre]
    rfl
  · intro c hc
    unfold dumpCallInfo at hc
    by_cases hret : (!c.returned) = true
    · rw [if_pos hret] at hc
      exact Option.noConfusion hc
    · rw [if_neg hret] at hc
      cases hargs : dumpArgsTxt c.args with
      | none => rw [hargs] at hc; exact Option.noConfusion hc
      | some b =>
        cases b with
        | true =>
          rw [hargs] at hc
          exact absurd hc (dumpRetTxt_ne_false c.ret)
        | false =>
          rcases dumpArgsTxt_false c.args hargs with ⟨a, ha, hfalse⟩
          rcases dumpArgTxt_false a hfalse with ⟨h1, h2, h3⟩
          exact ⟨a, ha, h1, h2, h3⟩

/-- Witness for the amended C6: a one-call path whose only argument has a
traced-out pointee with an absent out-value halts the dump at that first
call; the constraints section is still emitted. -/
theorem dump_failure_halts_path_witness :
    processCallPathDump ([] ++ exArgAbsent :: []) = some (([] : List CallInfo).length, true) ∧
    ∀ c : CallInfo, dumpCallInfo c = some false →
      ∃ a ∈ c.args, a.isPtr = true ∧ a.funPtr = none ∧
        ((a.pointee.doTraceValueOut = true ∧ a.pointee.outVal = none) ∨
         ∃ pr ∈ a.pointee.fields, pr.2.doTraceValueOut = true ∧ pr.2.outVal = none) :=
  dump_failure_halts_path [] exArgAbsent []
    (by intro c hc; exact absurd hc (List.not_mem_nil c)) (by decide)

/-- Structural call equality is reflexive. -/
theorem callInfo_eq_self (a : CallInfo) : CallInfo.eq a a = true := by
  simp [CallInfo.eq]

/-- Structural call equality decides propositional equality. -/
theorem callInfo_eq_false_iff (a b : CallInfo) : CallInfo.eq a b = false ↔ a ≠ b := by
  simp [CallInfo.eq]

/-- C3: inserting `[c1,c2,c3]` and then `[c1,c2,c4]` (structurally distinct
tails) into an empty tree shares the `c1` and `c2` nodes - the result is a
single chain `c1 → c2` with the two children `c3`, `c4` under `c2` - and the
node count (root aside) equals the number of distinct nonempty prefixes of
the two paths, namely 4. -/
theorem callTree_prefix_sharing (root : CallPathTip) (c1 c2 c3 c4 : CallInfo)
    (id1 id2 : Nat) (hne : CallInfo.eq c3 c4 = false) :
    ((CallTree.mk root []).addCallPath [c1, c2, c3] id1).addCallPath [c1, c2, c4] id2
      = CallTree.mk root [CallTree.mk ⟨c1, id1⟩ [CallTree.mk ⟨c2, id1⟩
          [CallTree.mk ⟨c3, id1⟩ [], CallTree.mk ⟨c4, id2⟩ []]]] ∧
    (((CallTree.mk root []).addCallPath [c1, c2, c3] id1).addCallPath [c1, c2, c4] id2).numNodes
      = 1 + distinctPrefixCount [[c1, c2, c3], [c1, c2, c4]] ∧
    distinctPrefixCount [[c1, c2, c3], [c1, c2, c4]] = 4 := by
  have hne' : c3 ≠ c4 := (callInfo_eq_false_iff c3 c4).mp hne
  have htree : ((CallTree.mk root []).addCallPath [c1, c2, c3] id1).addCallPath [c1, c2, c4] id2
      = CallTree.mk root [CallTree.mk ⟨c1, id1⟩ [CallTree.mk ⟨c2, id1⟩
          [CallTree.mk ⟨c3, id1⟩ [], CallTree.mk ⟨c4, id2⟩ []]]] := by
    simp [CallTree.addCallPath, insertCallPath, CallTree.tip, callInfo_eq_self, hne]
  have hcount : distinctPrefixCount [[c1, c2, c3], [c1, c2, c4]] = 4 := by
    show ([[c1], [c1, c2], [c1, c2, c3], [c1], [c1, c2], [c1, c2, c4]] :
      List (List CallInfo)).dedup.length = 4
    have m1 : ([c1] : List CallInfo) ∈ [[c1, c2], [c1, c2, c3], [c1], [c1, c2], [c1, c2, c4]] := by
      simp
    have m2 : ([c1, c2] : List CallInfo) ∈ [[c1, c2, c3], [c1], [c1, c2], [c1, c2, c4]] := by
      simp
    have m3 : ([c1, c2, c3] : List CallInfo) ∉ [[c1], [c1, c2], [c1, c2, c4]] := by
      simp [hne']
    have m4 : ([c1] : List CallInfo) ∉ [[c1, c2], [c1, c2, c4]] := by simp
    have m5 : ([c1, c2] : List CallInfo) ∉ [[c1, c2, c4]] := by simp
    have m6 : ([c1, c2, c4] : List CallInfo) ∉ ([] : List (List CallInfo)) := by simp
    rw [List.dedup_cons_of_mem m1, List.dedup_cons_of_mem m2,
      List.dedup_cons_of_not_mem m3, List.dedup_cons_of_not_mem m4,
      List.dedup_cons_of_not_mem m5, List.dedup_cons_of_not_mem m6,
      List.dedup_nil]
    rfl
  refine ⟨htree, ?_, hcount⟩
  rw [htree, hcount]
  simp [CallTree.numNodes, numNodesList]

/-- Witness for C3 at four concrete call records with distinct callees `c`
and `d` in the tails. -/
theorem callTree_prefix_sharing_witness :
    ((CallTree.mk ⟨mkSimpleCall "r", 0⟩ []).addCallPath
        [mkSimpleCall "a", mkSimpleCall "b", mkSimpleCall "c"] 1).addCallPath
        [mkSimpleCall "a", mkSimpleCall "b", mkSimpleCall "d"] 2
      = CallTree.mk ⟨mkSimpleCall "r", 0⟩ [CallTree.mk ⟨mkSimpleCall "a", 1⟩
          [CallTree.mk ⟨mkSimpleCall "b", 1⟩
            [CallTree.mk ⟨mkSimpleCall "c", 1⟩ [], CallTree.mk ⟨mkSimpleCall "d", 2⟩ []]]] ∧
    (((CallTree.mk ⟨mkSimpleCall "r", 0⟩ []).addCallPath
        [mkSimpleCall "a", mkSimpleCall "b", mkSimpleCall "c"] 1).addCallPath
        [mkSimpleCall "a", mkSimpleCall "b", mkSimpleCall "d"] 2).numNodes
      = 1 + distinctPrefixCount
          [[mkSimpleCall "a", mkSimpleCall "b", mkSimpleCall "c"],
           [mkSimpleCall "a", mkSimpleCall "b", mkSimpleCall "d"]] ∧
    distinctPrefixCount
        [[mkSimpleCall "a", mkSimpleCall "b", mkSimpleCall "c"],
         [mkSimpleCall "a", mkSimpleCall "b", mkSimpleCall "d"]] = 4 :=
  callTree_prefix_sharing ⟨mkSimpleCall "r", 0⟩ (mkSimpleCall "a") (mkSimpleCall "b")
    (mkSimpleCall "c") (mkSimpleCall "d") 1 2 (by decide)

/-- Invocation equivalence is reflexive. -/
theorem sameInvocation_refl (a : CallInfo) : a.sameInvocation a = true := by
  simp [CallInfo.sameInvocation]

/-- Invocation equivalence is symmetric. -/
theorem sameInvocation_symm (a b : CallInfo) :
    a.sameInvocation b = b.sameInvocation a := by
  simp only [CallInfo.sameInvocation]
  by_cases h : a.invKey = b.invKey
  · rw [decide_eq_true h, decide_eq_true h.symm]
  · rw [decide_eq_false h, decide_eq_false (fun hc => h hc.symm)]

/-- Invocation equivalence is transitive. -/
theorem sameInvocation_trans {a b c : CallInfo}
    (h1 : a.sameInvocation b = true) (h2 : b.sameInvocation c = true) :
    a.sameInvocation c = true := by
  simp only [CallInfo.sameInvocation, decide_eq_true_eq] at h1 h2 ⊢
  exact h1.trans h2

/-- A tip accepted by no representative opens a fresh group at the end. -/
theorem insertTip_notFound :
    ∀ (gs : List (List CallPathTip)) (x : CallPathTip),
      (∀ g ∈ gs, repMatches g x = false) → insertTip gs x = gs ++ [[x]] := by
  intro gs
  induction gs with
  | nil => intro x _; rfl
  | cons g gs ih =>
    intro x hall
    cases g with
    | nil =>
      show [] :: insertTip gs x = ([] : List CallPathTip) :: (gs ++ [[x]])
      rw [ih x fun g' hg' => hall g' (List.mem_cons_of_mem _ hg')]
    | cons r grest =>
      have hr : r.call.sameInvocation x.call = false := by
        have := hall (r :: grest) (List.mem_cons_self _ _)
        simpa [repMatches] using this
      show (if x.call.sameInvocation r.call then ((r :: grest) ++ [x]) :: gs
            else (r :: grest) :: insertTip gs x) = (r :: grest) :: gs ++ [[x]]
      rw [sameInvocation_symm x.call r.call, hr]
      simp only [Bool.false_eq_true, if_false, List.cons_append]
      rw [ih x fun g' hg' => hall g' (List.mem_cons_of_mem _ hg')]

/-- A tip rejected by every earlier representative and accepted by group `g`
is appended to `g`. -/
theorem insertTip_found :
    ∀ (gs1 : List (List CallPathTip)) (g : List CallPathTip)
      (gs2 : List (List CallPathTip)) (x : CallPathTip),
      (∀ g' ∈ gs1, repMatches g' x = false) → repMatches g x = true →
      insertTip (gs1 ++ g :: gs2) x = gs1 ++ (g ++ [x]) :: gs2 := by
  intro gs1
  induction gs1 with
  | nil =>
    intro g gs2 x _ hg
    cases g with
    | nil => exact absurd hg (by simp [repMatches])
    | cons r grest =>
      have hr : r.call.sameInvocation x.call = true := by simpa [repMatches] using hg
      show (if x.call.sameInvocation r.call then ((r :: grest) ++ [x]) :: gs2
            else (r :: grest) :: insertTip gs2 x) = ((r :: grest) ++ [x]) :: gs2
      rw [sameInvocation_symm x.call r.call, hr, if_pos rfl]
  | cons g1 gs1 ih =>
    intro g gs2 x hpre hg
    have hrest : ∀ g' ∈ gs1, repMatches g' x = false :=
      fun g' hg' => hpre g' (List.mem_cons_of_mem _ hg')
    cases g1 with
    | nil =>
      show [] :: insertTip (gs1 ++ g :: gs2) x
          = ([] : List CallPathTip) :: (gs1 ++ (g ++ [x]) :: gs2)
      rw [ih g gs2 x hrest hg]
    | cons r grest =>
      have hr : r.call.sameInvocation x.call = false := by
        have := hpre (r :: grest) (List.mem_cons_self _ _)
        simpa [repMatches] using this
      show (if x.call.sameInvocation r.call then ((r :: grest) ++ [x]) :: (gs1 ++ g :: gs2)
            else (r :: grest) :: insertTip (gs1 ++ g :: gs2) x)
          = (r :: grest) :: (gs1 ++ (g ++ [x]) :: gs2)
      rw [sameInvocation_symm x.call r.call, hr]
      simp only [Bool.false_eq_true, if_false]
      rw [ih g gs2 x hrest hg]

/-- When some representative accepts the tip, the group list splits at the
first accepting group. -/
theorem first_match_decomp :
    ∀ (gs : List (List CallPathTip)) (x : CallPathTip),
      noGroupMatches gs x = false →
      ∃ gs1 g gs2, gs = gs1 ++ g :: gs2 ∧
        (∀ g' ∈ gs1, repMatches g' x = false) ∧ repMatches g x = true := by
  intro gs
  induction gs with
  | nil => intro x h; simp [noGroupMatches] at h
  | cons g gs ih =>
    intro x h
    by_cases hg : repMatches g x = true
    · exact ⟨[], g, gs, rfl, by simp, hg⟩
    · have hg' : repMatches g x = false := Bool.eq_false_iff.mpr hg
      have hrest : noGroupMatches gs x = false := by
        by_contra hc
        have hc' : noGroupMatches gs x = true := eq_true_of_ne_false hc
        have hall : noGroupMatches (g :: gs) x = true := by
          simp only [noGroupMatches, List.all_cons, hg', Bool.not_false, Bool.true_and]
          exact hc'
        rw [hall] at h
        exact Bool.noConfusion h
      rcases ih x hrest with ⟨gs1, g2, gs2, heq, hpre, hg2⟩
      exact ⟨g :: gs1, g2, gs2, by rw [heq, List.cons_append],
        by
          intro g' hg'2
          rcases List.mem_cons.mp hg'2 with rfl | hmem
          · exact hg'
          · exact hpre g' hmem,
        hg2⟩

/-- Appending to a nonempty group keeps its representative. -/
theorem repMatches_append (g : List CallPathTip) (x y : CallPathTip)
    (hne : g ≠ []) : repMatches (g ++ [x]) y = repMatches g y := by
  cases g with
  | nil => exact absurd rfl hne
  | cons r grest => rfl

/-- The `groupChildren` fold, from an accumulator of nonempty groups with
pairwise-inequivalent representatives, extends each accumulated group with
the tips its representative accepts (in order) and groups the remaining tips
by first appearance. -/
theorem foldl_insertTip_spec :
    ∀ (l : List CallPathTip) (gs : List (List CallPathTip)),
      (∀ g ∈ gs, g ≠ []) → List.Pairwise RepDisj gs →
      l.foldl insertTip gs
        = extendGroups gs l ++ specGroups (l.filter (noGroupMatches gs)) := by
  intro l
  induction l with
  | nil =>
    intro gs hne hpw
    show gs = extendGroups gs [] ++ specGroups ([].filter (noGroupMatches gs))
    simp [extendGroups, specGroups]
  | cons x xs ih =>
    intro gs hne hpw
    rw [List.foldl_cons]
    by_cases hA : noGroupMatches gs x = true
    · have hAll : ∀ g ∈ gs, repMatches g x = false := by
        intro g hg
        have := List.all_eq_true.mp hA g hg
        simpa using this
      rw [insertTip_notFound gs x hAll]
      have hne2 : ∀ g ∈ gs ++ [[x]], g ≠ [] := by
        intro g hg
        rcases List.mem_append.mp hg with hg1 | hg1
        · exact hne g hg1
        · simp at hg1
          subst hg1
          simp
      have hpw2 : List.Pairwise RepDisj (gs ++ [[x]]) := by
        rw [List.pairwise_append]
        refine ⟨hpw, by simp, ?_⟩
        intro g hg b hb y hgy
        simp at hb
        subst hb
        by_contra hc
        have hxy : x.call.sameInvocation y.call = true := by
          have hc2 := eq_true_of_ne_false hc
          simpa [repMatches] using hc2
        cases g with
        | nil => simp [repMatches] at hgy
        | cons r grest =>
          have hry : r.call.sameInvocation y.call = true := by
            simpa [repMatches] using hgy
          have hyx : y.call.sameInvocation x.call = true := by
            rw [sameInvocation_symm]
            exact hxy
          have hrx : r.call.sameInvocation x.call = true := sameInvocation_trans hry hyx
          have hcontra := hAll (r :: grest) hg
          simp [repMatches, hrx] at hcontra
      rw [ih (gs ++ [[x]]) hne2 hpw2]
      have e1 : extendGroups (gs ++ [[x]]) xs
          = extendGroups gs xs ++ [[x] ++ xs.filter (repMatches [x])] := by
        simp [extendGroups]
      have e2 : extendGroups gs (x :: xs) = extendGroups gs xs := by
        unfold extendGroups
        apply List.map_congr_left
        intro g hg
        rw [List.filter_cons, hAll g hg]
        simp
      have e3 : (x :: xs).filter (noGroupMatches gs) = x :: xs.filter (noGroupMatches gs) := by
        rw [List.filter_cons, if_pos hA]
      have habs : ∀ y : CallPathTip, x.call.sameInvocation y.call = true →
          noGroupMatches gs y = true := by
        intro y hxy
        by_contra hc
        have hc' : noGroupMatches gs y = false := Bool.eq_false_iff.mpr hc
        rcases first_match_decomp gs y hc' with ⟨gs1, g, gs2, heq, _, hgy⟩
        have hgmem : g ∈ gs := by
          rw [heq]
          exact List.mem_append_right _ (List.mem_cons_self _ _)
        cases g with
        | nil => simp [repMatches] at hgy
        | cons r grest =>
          have hry : r.call.sameInvocation y.call = true := by
            simpa [repMatches] using hgy
          have hyx : y.call.sameInvocation x.call = true := by
            rw [sameInvocation_symm]
            exact hxy
          have hrx := sameInvocation_trans hry hyx
          have hcontra := hAll _ hgmem
          simp [repMatches, hrx] at hcontra
      have f1 : (xs.filter (noGroupMatches gs)).filter
            (fun y => x.call.sameInvocation y.call)
          = xs.filter (repMatches [x]) := by
        rw [List.filter_filter]
        apply List.filter_congr
        intro y _
        by_cases hxy : x.call.sameInvocation y.call = true
        · rw [hxy, habs y hxy]
          simp [repMatches, hxy]
        · have hxy' := Bool.eq_false_iff.mpr hxy
          rw [hxy']
          simp [repMatches, hxy']
      have f2 : (xs.filter (noGroupMatches gs)).filter
            (fun y => !(x.call.sameInvocation y.call))
          = xs.filter (noGroupMatches (gs ++ [[x]])) := by
        rw [List.filter_filter]
        apply List.filter_congr
        intro y _
        show (!(x.call.sameInvocation y.call) && noGroupMatches gs y)
            = noGroupMatches (gs ++ [[x]]) y
        simp only [noGroupMatches, List.all_append, List.all_cons, List.all_nil,
          Bool.and_true, repMatches]
        cases hxy : x.call.sameInvocation y.call <;>
          cases hgy : (gs.all fun g => !(repMatches g y)) <;> simp
      rw [e1, e2, e3]
      simp only [specGroups]
      rw [f1, f2]
      simp only [List.append_assoc, List.singleton_append]
    · have hA' : noGroupMatches gs x = false := Bool.eq_false_iff.mpr hA
      rcases first_match_decomp gs x hA' with ⟨gs1, g, gs2, heq, hpre, hg⟩
      subst heq
      rw [insertTip_found gs1 g gs2 x hpre hg]
      have hgne : g ≠ [] :=
        hne g (List.mem_append_right _ (List.mem_cons_self _ _))
      have hrm : ∀ y, repMatches (g ++ [x]) y = repMatches g y :=
        fun y => repMatches_append g x y hgne
      have hne2 : ∀ g' ∈ gs1 ++ (g ++ [x]) :: gs2, g' ≠ [] := by
        intro g' hg'
        rcases List.mem_append.mp hg' with h1 | h2
        · exact hne g' (List.mem_append_left _ h1)
        · rcases List.mem_cons.mp h2 with rfl | h3
          · simp
          · exact hne g' (List.mem_append_right _ (List.mem_cons_of_mem _ h3))
      have hpw2 : List.Pairwise RepDisj (gs1 ++ (g ++ [x]) :: gs2) := by
        rw [List.pairwise_append] at hpw ⊢
        obtain ⟨hp1, hp23, hcross⟩ := hpw
        rw [List.pairwise_cons] at hp23 ⊢
        obtain ⟨hgg2, hp2⟩ := hp23
        refine ⟨hp1, ⟨?_, hp2⟩, ?_⟩
        · intro b hb y hy
          exact hgg2 b hb y ((hrm y) ▸ hy)
        · intro a ha b hb
          rcases List.mem_cons.mp hb with rfl | hb2
          · intro y hy
            rw [hrm y]
            exact hcross a ha g (List.mem_cons_self _ _) y hy
          · exact hcross a ha b (List.mem_cons_of_mem _ hb2)
      rw [ih _ hne2 hpw2]
      have hpost : ∀ g' ∈ gs2, repMatches g' x = false := by
        rw [List.pairwise_append] at hpw
        obtain ⟨_, hp23, _⟩ := hpw
        rw [List.pairwise_cons] at hp23
        exact fun g' hg' => hp23.1 g' hg' x hg
      have hfg : xs.filter (repMatches (g ++ [x])) = xs.filter (repMatches g) :=
        List.filter_congr fun y _ => hrm y
      have e1 : extendGroups (gs1 ++ (g ++ [x]) :: gs2) xs
          = extendGroups gs1 xs
            ++ ((g ++ [x]) ++ xs.filter (repMatches g)) :: extendGroups gs2 xs := by
        simp only [extendGroups, List.map_append, List.map_cons, hfg]
      have e2 : extendGroups (gs1 ++ g :: gs2) (x :: xs)
          = extendGroups gs1 xs
            ++ (g ++ x :: xs.filter (repMatches g)) :: extendGroups gs2 xs := by
        simp only [extendGroups, List.map_append, List.map_cons]
        have h2 : (x :: xs).filter (repMatches g) = x :: xs.filter (repMatches g) := by
          rw [List.filter_cons, if_pos hg]
        rw [h2]
        congr 1
        · apply List.map_congr_left
          intro g' hg'
          rw [List.filter_cons, hpre g' hg']
          simp
        · congr 1
          apply List.map_congr_left
          intro g' hg'
          rw [List.filter_cons, hpost g' hg']
          simp
      have e3 : xs.filter (noGroupMatches (gs1 ++ (g ++ [x]) :: gs2))
          = xs.filter (noGroupMatches (gs1 ++ g :: gs2)) := by
        apply List.filter_congr
        intro y _
        simp only [noGroupMatches, List.all_append, List.all_cons, hrm y]
      have e4 : (x :: xs).filter (noGroupMatches (gs1 ++ g :: gs2))
          = xs.filter (noGroupMatches (gs1 ++ g :: gs2)) := by
        rw [List.filter_cons, hA']
        simp
      rw [e1, e2, e3, e4]
      simp only [List.append_assoc, List.singleton_append]

/-- From the empty accumulator the `groupChildren` fold computes exactly the
specification's first-appearance grouping. -/
theorem foldl_insertTip_eq_specGroups (l : List CallPathTip) :
    l.foldl insertTip [] = specGroups l := by
  rw [foldl_insertTip_spec l [] (by simp) (by simp)]
  have hfl : l.filter (noGroupMatches []) = l :=
    List.filter_eq_self.mpr fun a _ => by simp [noGroupMatches]
  rw [hfl]
  simp [extendGroups]

/-- Flattening the specification grouping permutes the original tips: every
tip lands in exactly one group. -/
theorem specGroups_flatten_perm : ∀ l : List CallPathTip, (specGroups l).flatten.Perm l := by
  intro l
  induction l using specGroups.induct with
  | case1 => simp [specGroups]
  | case2 x xs ih =>
    simp only [specGroups, List.flatten_cons, List.cons_append]
    refine List.Perm.cons x ?_
    have h1 := List.Perm.append_left (xs.filter fun y => x.call.sameInvocation y.call) ih
    exact h1.trans (List.filter_append_perm (fun y => x.call.sameInvocation y.call) xs)

/-- Every specification group is nonempty and pairwise invocation-equivalent. -/
theorem specGroups_groups_equiv : ∀ l : List CallPathTip, ∀ g ∈ specGroups l,
    g ≠ [] ∧ ∀ a ∈ g, ∀ b ∈ g, a.call.sameInvocation b.call = true := by
  intro l
  induction l using specGroups.induct with
  | case1 => simp [specGroups]
  | case2 x xs ih =>
    intro g hg
    simp only [specGroups, List.mem_cons] at hg
    rcases hg with rfl | hg2
    · refine ⟨by simp, ?_⟩
      intro a ha b hb
      have hxa : x.call.sameInvocation a.call = true := by
        rcases List.mem_cons.mp ha with rfl | ha2
        · exact sameInvocation_refl _
        · exact (List.mem_filter.mp ha2).2
      have hxb : x.call.sameInvocation b.call = true := by
        rcases List.mem_cons.mp hb with rfl | hb2
        · exact sameInvocation_refl _
        · exact (List.mem_filter.mp hb2).2
      have hax : a.call.sameInvocation x.call = true := by
        rw [sameInvocation_symm]
        exact hxa
      exact sameInvocation_trans hax hxb
    · exact ih g hg2

/-- C4: `groupChildren` is a pure function of the children sequence and
equals the specification's grouping (groups in first-appearance order of
their representatives, members in children order); every child tip lands in
exactly one group (the groups flatten to a permutation of the tips), and
within a group every pair of tips is invocation-equivalent. -/
theorem groupChildren_spec (t : CallTree) :
    t.groupChildren = specGroups (t.children.map CallTree.tip) ∧
    (∀ t2 : CallTree, t2.children = t.children → t2.groupChildren = t.groupChildren) ∧
    (t.groupChildren).flatten.Perm (t.children.map CallTree.tip) ∧
    ∀ g ∈ t.groupChildren, g ≠ [] ∧
      ∀ a ∈ g, ∀ b ∈ g, a.call.sameInvocation b.call = true := by
  have heq : t.groupChildren = specGroups (t.children.map CallTree.tip) := by
    unfold CallTree.groupChildren
    exact foldl_insertTip_eq_specGroups _
  refine ⟨heq, ?_, ?_, ?_⟩
  · intro t2 hch
    unfold CallTree.groupChildren
    rw [hch]
  · rw [heq]
    exact specGroups_flatten_perm _
  · rw [heq]
    exact specGroups_groups_equiv _
